import Mathlib

/-!
Verification of the stock/price reconciliation logic of the `seller-apis`
repository (files `seller.py` for the Ozon marketplace and `market.py` for
Yandex Market).  The pure reconciliation core is embedded shallowly:

* spreadsheet rows become the `Watch` structure (keys `Код`, `Количество`,
  `Цена` transliterated to `kod`, `kolichestvo`, `tsena`);
* the Python exception raised by `int()` on a malformed string is embedded
  as `Option`/`Except` results;
* in-place mutation of the `offer_ids` list is embedded by threading the
  list through the recursion and returning its final value;
* network collaborators (catalog fetches, batch pushes, the inventory
  download) are embedded as `Except` values supplied by the caller, and the
  current-time reading of `market.create_stocks` as an explicit `date`
  argument.
-/

/-- ASCII whitespace stripped by Python `int()` (space, tab, newline,
carriage return, vertical tab, form feed).  Python also strips some Unicode
whitespace; only the ASCII forms are modelled. -/
def pyWS (c : Char) : Bool :=
  c = ' ' || c = '\t' || c = '\n' || c = '\r' || c = '\x0b' || c = '\x0c'

/-- Strip leading and trailing whitespace, as Python `int()` does before
parsing. -/
def stripWS (l : List Char) : List Char :=
  ((l.dropWhile pyWS).reverse.dropWhile pyWS).reverse

/-- Numeric value of an ASCII digit character. -/
def digitVal (c : Char) : Nat := c.toNat - 48

/-- Digit-sequence tail of Python `int()`: digits, optionally separated by
single underscores (an underscore must sit between two digits). -/
def pyIntDigitsAux : Nat → List Char → Option Nat
  | acc, [] => some acc
  | acc, c :: rest =>
    if c.isDigit then pyIntDigitsAux (10 * acc + digitVal c) rest
    else if c = '_' then
      match rest with
      | [] => none
      | d :: rest2 =>
        if d.isDigit then pyIntDigitsAux (10 * acc + digitVal d) rest2 else none
    else none

/-- Unsigned part of Python `int()`: a nonempty digit sequence. -/
def pyIntStart : List Char → Option Nat
  | [] => none
  | c :: rest => if c.isDigit then pyIntDigitsAux (digitVal c) rest else none

/-- Signed part of Python `int()`: an optional `+`/`-` sign followed by a
nonempty digit sequence. -/
def pyIntCore : List Char → Option Int
  | [] => none
  | c :: rest =>
    if c = '+' then (pyIntStart rest).map (fun n => (n : Int))
    else if c = '-' then (pyIntStart rest).map (fun n => -(n : Int))
    else (pyIntStart (c :: rest)).map (fun n => (n : Int))

/-- Embedding of Python `int(s)` on a string argument: `none` models the
`ValueError` raised on a malformed literal.  Only ASCII numerals are
modelled (the spreadsheet data is ASCII-numeric). -/
def pyInt (s : String) : Option Int := pyIntCore (stripWS s.data)

/-- One row of the downloaded inventory spreadsheet: code (`Код`), raw
quantity string (`Количество`), raw price string (`Цена`). -/
structure Watch where
  kod : String
  kolichestvo : String
  tsena : String
deriving DecidableEq

/-- The quantity policy shared verbatim by `seller.create_stocks` and
`market.create_stocks`: `">10"` maps to 100, `"1"` maps to 0, anything else
is given to Python `int()` (whose `ValueError` is the `none` case). -/
def stockOfCount (count : String) : Option Int :=
  if count = ">10" then some 100
  else if count = "1" then some 0
  else pyInt count

namespace Seller

/-- Embedding of Python `re.sub("[^0-9]", "", s)`: delete every character
that is not an ASCII digit. -/
def reSubNonDigit (l : List Char) : List Char := l.filter Char.isDigit

/-- Embedding of Python `s.split(".")`: split the character list at every
`'.'`; splitting the empty string yields one empty piece, exactly as in
Python. -/
def splitDot : List Char → List (List Char)
  | [] => [[]]
  | c :: rest =>
    if c = '.' then [] :: splitDot rest
    else
      match splitDot rest with
      | [] => [[c]]
      | h :: t => (c :: h) :: t

/-- `seller.price_conversion`: `re.sub("[^0-9]", "", price.split(".")[0])`.
The `[0]` index is total because `split` never returns an empty list. -/
def price_conversion (price : String) : String :=
  String.mk (reSubNonDigit ((splitDot price.data).headD []))

/-- Structural-recursion engine for `divide`, driven by a fuel counter (the
caller passes the list length, which always suffices because each step
consumes at least one element).  The chunk size is `m + 1`. -/
def divideGoF : Nat → List α → Nat → List (List α)
  | 0, _, _ => []
  | _ + 1, [], _ => []
  | fuel + 1, a :: rest, m =>
    ((a :: rest).take (m + 1)) :: divideGoF fuel ((a :: rest).drop (m + 1)) m

/-- `seller.divide(lst, n)`: the slices `lst[i : i + n]` for
`i = 0, n, 2n, ...`.  Python `range` with step 0 raises `ValueError`, which
is the `none` case. -/
def divide (lst : List α) (n : Nat) : Option (List (List α)) :=
  if n = 0 then none else some (divideGoF lst.length lst (n - 1))

/-- One element of the list built by `seller.create_stocks`:
`{"offer_id": ..., "stock": ...}`. -/
structure StockEntry where
  offer_id : String
  stock : Int
deriving DecidableEq

/-- The matching loop of `seller.create_stocks`: for each inventory row
whose code is a currently-present offer id, emit an entry with the quantity
given by the quantity policy and remove the code from `offer_ids`
(`list.remove` deletes the first occurrence, i.e. `List.erase`).  The final
state of the mutated `offer_ids` list is returned alongside the entries;
`none` models the `ValueError` of `int()`. -/
def create_stocksLoop : List Watch → List String → Option (List StockEntry × List String)
  | [], offer_ids => some ([], offer_ids)
  | w :: rest, offer_ids =>
    if w.kod ∈ offer_ids then
      (stockOfCount w.kolichestvo).bind fun stock =>
        (create_stocksLoop rest (offer_ids.erase w.kod)).map fun p =>
          (⟨w.kod, stock⟩ :: p.1, p.2)
    else create_stocksLoop rest offer_ids

/-- `seller.create_stocks(watch_remnants, offer_ids)`: the matching loop
followed by a zero-quantity entry for every offer id left in the (mutated)
`offer_ids` list.  The returned pair carries the result list and the final
value of the caller's `offer_ids` list. -/
def create_stocks (watch_remnants : List Watch) (offer_ids : List String) :
    Option (List StockEntry × List String) :=
  (create_stocksLoop watch_remnants offer_ids).map fun p =>
    (p.1 ++ p.2.map (fun offer_id => ⟨offer_id, 0⟩), p.2)

/-- One element of the list built by `seller.create_prices`. -/
structure SellerPrice where
  auto_action_enabled : String
  currency_code : String
  offer_id : String
  old_price : String
  price : String
deriving DecidableEq

/-- The dictionary `seller.create_prices` builds for one matching row. -/
def priceOf (w : Watch) : SellerPrice :=
  ⟨"UNKNOWN", "RUB", w.kod, "0", price_conversion w.tsena⟩

/-- The loop of `seller.create_prices`: emit a price record for every row
whose code is in `offer_ids`; the list is only read, never mutated, so it
is threaded through unchanged. -/
def create_pricesLoop : List Watch → List String → List SellerPrice × List String
  | [], offer_ids => ([], offer_ids)
  | w :: rest, offer_ids =>
    if w.kod ∈ offer_ids then
      let p := create_pricesLoop rest offer_ids
      (priceOf w :: p.1, p.2)
    else create_pricesLoop rest offer_ids

/-- `seller.create_prices(watch_remnants, offer_ids)`; the second component
is the final value of the caller's `offer_ids` list. -/
def create_prices (watch_remnants : List Watch) (offer_ids : List String) :
    List SellerPrice × List String :=
  create_pricesLoop watch_remnants offer_ids

end Seller

namespace Market

/-- One element of the `items` list of a Yandex Market stock record. -/
structure MarketItem where
  count : Int
  type : String
  updatedAt : String
deriving DecidableEq

/-- One element of the list built by `market.create_stocks`. -/
structure MarketStockEntry where
  sku : String
  warehouseId : String
  items : List MarketItem
deriving DecidableEq

/-- The matching loop of `market.create_stocks`: same structure as the Ozon
loop, but each entry carries the warehouse id and a singleton `items` list
holding the quantity, the literal type `"FIT"` and the timestamp `date`
(the `utcnow` reading taken once at the top of the function, embedded as an
argument). -/
def create_stocksLoop (ws : List Watch) (offer_ids : List String)
    (warehouse_id date : String) : Option (List MarketStockEntry × List String) :=
  match ws with
  | [] => some ([], offer_ids)
  | w :: rest =>
    if w.kod ∈ offer_ids then
      (stockOfCount w.kolichestvo).bind fun stock =>
        (create_stocksLoop rest (offer_ids.erase w.kod) warehouse_id date).map fun p =>
          (⟨w.kod, warehouse_id, [⟨stock, "FIT", date⟩]⟩ :: p.1, p.2)
    else create_stocksLoop rest offer_ids warehouse_id date

/-- `market.create_stocks(watch_remnants, offer_ids, warehouse_id)` with the
`utcnow` timestamp passed explicitly as `date`. -/
def create_stocks (watch_remnants : List Watch) (offer_ids : List String)
    (warehouse_id date : String) : Option (List MarketStockEntry × List String) :=
  (create_stocksLoop watch_remnants offer_ids warehouse_id date).map fun p =>
    (p.1 ++ p.2.map (fun offer_id => ⟨offer_id, warehouse_id, [⟨0, "FIT", date⟩]⟩), p.2)

/-- The nested `price` dictionary of a Yandex Market price record. -/
structure MarketPriceVal where
  value : Int
  currencyId : String
deriving DecidableEq

/-- One element of the list built by `market.create_prices`. -/
structure MarketPrice where
  id : String
  price : MarketPriceVal
deriving DecidableEq

/-- The record `market.create_prices` builds for one matching row:
`int(price_conversion(...))` may raise, hence the `Option`. -/
def priceOf (w : Watch) : Option MarketPrice :=
  (pyInt (Seller.price_conversion w.tsena)).map fun v => ⟨w.kod, ⟨v, "RUR"⟩⟩

/-- The loop of `market.create_prices`: emit a record for every row whose
code is in `offer_ids`; `int()` on the parsed price string may raise
(`none`).  The untouched `offer_ids` list is threaded through. -/
def create_pricesLoop : List Watch → List String → Option (List MarketPrice × List String)
  | [], offer_ids => some ([], offer_ids)
  | w :: rest, offer_ids =>
    if w.kod ∈ offer_ids then
      (priceOf w).bind fun pr =>
        (create_pricesLoop rest offer_ids).map fun p => (pr :: p.1, p.2)
    else create_pricesLoop rest offer_ids

/-- `market.create_prices(watch_remnants, offer_ids)`. -/
def create_prices (watch_remnants : List Watch) (offer_ids : List String) :
    Option (List MarketPrice × List String) :=
  create_pricesLoop watch_remnants offer_ids

end Market

/-- Ozon entries keyed by the data that does not depend on the warehouse or
the clock, for comparison with Yandex Market entries. -/
def toMarketEntry (warehouse_id date : String) (e : Seller.StockEntry) :
    Market.MarketStockEntry :=
  ⟨e.offer_id, warehouse_id, [⟨e.stock, "FIT", date⟩]⟩

/-- A Yandex Market stock entry with its `updatedAt` timestamp erased: the
part of the record that is stable across runs. -/
def entryKey (e : Market.MarketStockEntry) : String × String × List (Int × String) :=
  (e.sku, e.warehouseId, e.items.map fun i => (i.count, i.type))

/-- The reconciliation sequence of `seller.main` for one run: `create_stocks`
consumes the fetched `offer_ids` list in place, and the following
`create_prices` call receives that same, already consumed, list. -/
def sellerMainScopeRun (ws : List Watch) (offer_ids : List String) :
    Option (List Seller.StockEntry × List Seller.SellerPrice) :=
  (Seller.create_stocks ws offer_ids).map fun sp =>
    (sp.1, (Seller.create_prices ws sp.2).1)

/-- The reconciliation sequence of `market.main` for one campaign scope:
`create_stocks` runs on the first `get_offer_ids` fetch, and the price pass
(`upload_prices`, treated as a synchronous call) performs its own fresh
`get_offer_ids` fetch, embedded as the second identifier list. -/
def marketMainScopeRun (ws : List Watch) (idsStock idsPrice : List String)
    (warehouse_id date : String) :
    Option (List Market.MarketStockEntry × List Market.MarketPrice) :=
  (Market.create_stocks ws idsStock warehouse_id date).bind fun sp =>
    (Market.create_prices ws idsPrice).map fun pp => (sp.1, pp.1)

/-- The exception kinds that can reach the top-level handlers: the first
two are the `requests` classes named by the `except` clauses, the rest are
`Exception` subclasses caught only by the final catch-all. -/
inductive PyExc where
  | readTimeout
  | connectionError (msg : String)
  | valueError (msg : String)
  | httpError (msg : String)
  | otherError (msg : String)
deriving DecidableEq

/-- Does `except requests.exceptions.ReadTimeout` match? -/
def catches1 : PyExc → Bool
  | .readTimeout => true
  | _ => false

/-- Does `except requests.exceptions.ConnectionError` match? -/
def catches2 : PyExc → Bool
  | .connectionError _ => true
  | _ => false

/-- Does `except Exception` match?  Every modelled error is an `Exception`
subclass. -/
def catches3 : PyExc → Bool := fun _ => true

/-- Index of the first `except` clause that matches, in source order. -/
def handlerOf (e : PyExc) : Nat :=
  if catches1 e then 1 else if catches2 e then 2 else 3

/-- Result of one `main` run: the `try` body completed, one `except` clause
caught an error, or an error escaped `main` unhandled. -/
inductive Outcome (α : Type) where
  | completed (a : α)
  | caught (handler : Nat) (e : PyExc)
  | uncaught (e : PyExc)
deriving DecidableEq

/-- Discriminator: was the run's error caught by an `except` clause? -/
def Outcome.isCaught : Outcome α → Bool
  | .caught _ _ => true
  | _ => false

/-- Semantics of the three-clause `try/except` block wrapped around a body:
a body error is dispatched to the first matching clause. -/
def runCaught (body : Except PyExc α) : Outcome α :=
  match body with
  | .ok a => .completed a
  | .error e => .caught (handlerOf e) e

/-- Re-raise an embedded `int()` result as the `ValueError` exception. -/
def ofOptionVE : Option α → Except PyExc α
  | none => .error (.valueError "invalid literal for int() with base 10")
  | some a => .ok a

/-- The `try` body of `seller.main`: fetch offer ids, download inventory,
reconcile and push stocks, reconcile and push prices.  Remote collaborators
are embedded as their `Except` outcomes. -/
def sellerMainBody (fetchIds : Except PyExc (List String))
    (download : Except PyExc (List Watch))
    (pushStocks pushPrices : Except PyExc Unit) :
    Except PyExc (List Seller.StockEntry × List Seller.SellerPrice) := do
  let ids ← fetchIds
  let ws ← download
  let sp ← ofOptionVE (Seller.create_stocks ws ids)
  let _ ← pushStocks
  let prices := (Seller.create_prices ws sp.2).1
  let _ ← pushPrices
  pure (sp.1, prices)

/-- `seller.main`: the whole body, inventory download included, runs inside
the `try` block. -/
def sellerMain (fetchIds : Except PyExc (List String))
    (download : Except PyExc (List Watch))
    (pushStocks pushPrices : Except PyExc Unit) :
    Outcome (List Seller.StockEntry × List Seller.SellerPrice) :=
  runCaught (sellerMainBody fetchIds download pushStocks pushPrices)

/-- One campaign scope of the `try` body of `market.main`: fetch, reconcile
and push stocks, then the price pass with its own fresh fetch. -/
def marketScopeBody (ws : List Watch)
    (idsStock : Except PyExc (List String)) (pushStocks : Except PyExc Unit)
    (idsPrice : Except PyExc (List String)) (pushPrices : Except PyExc Unit)
    (warehouse_id date : String) :
    Except PyExc (List Market.MarketStockEntry × List Market.MarketPrice) := do
  let i1 ← idsStock
  let sp ← ofOptionVE (Market.create_stocks ws i1 warehouse_id date)
  let _ ← pushStocks
  let i2 ← idsPrice
  let pp ← ofOptionVE (Market.create_prices ws i2)
  let _ ← pushPrices
  pure (sp.1, pp.1)

/-- The `try` body of `market.main`: the FBS scope then the DBS scope. -/
def marketMainBody (ws : List Watch)
    (fbsIdsStock : Except PyExc (List String)) (fbsPushStocks : Except PyExc Unit)
    (fbsIdsPrice : Except PyExc (List String)) (fbsPushPrices : Except PyExc Unit)
    (dbsIdsStock : Except PyExc (List String)) (dbsPushStocks : Except PyExc Unit)
    (dbsIdsPrice : Except PyExc (List String)) (dbsPushPrices : Except PyExc Unit)
    (whF whD date : String) :
    Except PyExc ((List Market.MarketStockEntry × List Market.MarketPrice) ×
      (List Market.MarketStockEntry × List Market.MarketPrice)) := do
  let fbs ← marketScopeBody ws fbsIdsStock fbsPushStocks fbsIdsPrice fbsPushPrices whF date
  let dbs ← marketScopeBody ws dbsIdsStock dbsPushStocks dbsIdsPrice dbsPushPrices whD date
  pure (fbs, dbs)

/-- `market.main`: `download_stock()` is evaluated before the `try` block;
only on success does the guarded body run. -/
def marketMain (download : Except PyExc (List Watch))
    (fbsIdsStock : Except PyExc (List String)) (fbsPushStocks : Except PyExc Unit)
    (fbsIdsPrice : Except PyExc (List String)) (fbsPushPrices : Except PyExc Unit)
    (dbsIdsStock : Except PyExc (List String)) (dbsPushStocks : Except PyExc Unit)
    (dbsIdsPrice : Except PyExc (List String)) (dbsPushPrices : Except PyExc Unit)
    (whF whD date : String) :
    Outcome ((List Market.MarketStockEntry × List Market.MarketPrice) ×
      (List Market.MarketStockEntry × List Market.MarketPrice)) :=
  match download with
  | .error e => .uncaught e
  | .ok ws =>
      runCaught (marketMainBody ws fbsIdsStock fbsPushStocks fbsIdsPrice fbsPushPrices
        dbsIdsStock dbsPushStocks dbsIdsPrice dbsPushPrices whF whD date)

lemma splitDot_ne_nil (l : List Char) : Seller.splitDot l ≠ [] := by
  cases l with
  | nil => simp [Seller.splitDot]
  | cons c rest =>
    simp only [Seller.splitDot]
    split
    · simp
    · cases h : Seller.splitDot rest <;> simp

lemma splitDot_headD (l : List Char) :
    (Seller.splitDot l).headD [] = l.takeWhile (fun c => c ≠ '.') := by
  induction l with
  | nil => rfl
  | cons c rest ih =>
    simp only [Seller.splitDot, List.takeWhile_cons]
    by_cases hc : c = '.'
    · simp [hc]
    · simp only [hc, if_false, decide_not]
      cases h : Seller.splitDot rest with
      | nil => exact absurd h (splitDot_ne_nil rest)
      | cons hd tl =>
        rw [h] at ih
        simp only [List.headD_cons] at ih
        simp [hc, ih]

lemma price_conversion_eq (s : String) :
    Seller.price_conversion s =
      String.mk ((s.data.takeWhile (fun c => c ≠ '.')).filter Char.isDigit) := by
  unfold Seller.price_conversion Seller.reSubNonDigit
  rw [splitDot_headD]

/-- C3: `price_conversion` keeps the text before the first `'.'`, deletes
every non-ASCII-digit character there, truncates any fraction, maps the
given examples as stated, and maps any input with no digit before the
first decimal point to the empty string without raising. -/
theorem claim_C3 :
    (∀ s : String, Seller.price_conversion s =
      String.mk ((s.data.takeWhile (fun c => c ≠ '.')).filter Char.isDigit)) ∧
    Seller.price_conversion "5\x27990.00 руб." = "5990" ∧
    Seller.price_conversion "1000 руб." = "1000" ∧
    Seller.price_conversion "12.99" = "12" ∧
    (∀ s : String, (∀ c ∈ s.data.takeWhile (fun c => c ≠ '.'), ¬ c.isDigit) →
      Seller.price_conversion s = "") := by
  refine ⟨price_conversion_eq, rfl, rfl, rfl, ?_⟩
  intro s h
  rw [price_conversion_eq]
  have hnil : (s.data.takeWhile (fun c => c ≠ '.')).filter Char.isDigit = [] := by
    rw [List.filter_eq_nil_iff]
    intro c hc
    simpa using h c hc
  rw [hnil]

/-- C3 witness: the final conjunct applied at `"ab.7"`. -/
theorem claim_C3_witness :
    (∀ c ∈ ("ab.7" : String).data.takeWhile (fun c => c ≠ '.'), ¬ c.isDigit) ∧
    Seller.price_conversion "ab.7" = "" :=
  ⟨by decide, claim_C3.2.2.2.2 "ab.7" (by decide)⟩

lemma divideGoF_nil {α : Type} (fuel m : Nat) :
    Seller.divideGoF fuel ([] : List α) m = [] := by
  cases fuel <;> rfl

lemma divideGoF_join {α : Type} (m : Nat) :
    ∀ (fuel : Nat) (lst : List α), lst.length ≤ fuel →
      (Seller.divideGoF fuel lst m).flatten = lst := by
  intro fuel
  induction fuel with
  | zero =>
    intro lst h
    have : lst = [] := List.eq_nil_of_length_eq_zero (Nat.le_zero.mp h)
    simp [this, Seller.divideGoF]
  | succ fuel ih =>
    intro lst h
    cases lst with
    | nil => simp [Seller.divideGoF]
    | cons a rest =>
      simp only [Seller.divideGoF, List.flatten_cons]
      rw [ih]
      · exact List.take_append_drop _ _
      · simp only [List.length_drop, List.length_cons] at h ⊢
        omega

lemma divideGoF_length_le {α : Type} (m : Nat) :
    ∀ (fuel : Nat) (lst : List α), ∀ c ∈ Seller.divideGoF fuel lst m, c.length ≤ m + 1 := by
  intro fuel
  induction fuel with
  | zero => intro lst c hc; simp [Seller.divideGoF] at hc
  | succ fuel ih =>
    intro lst c hc
    cases lst with
    | nil => simp [Seller.divideGoF] at hc
    | cons a rest =>
      simp only [Seller.divideGoF, List.mem_cons] at hc
      rcases hc with rfl | hc
      · rw [List.length_take]
        exact Nat.min_le_left _ _
      · exact ih _ c hc

lemma divideGoF_dropLast {α : Type} (m : Nat) :
    ∀ (fuel : Nat) (lst : List α), lst.length ≤ fuel →
      ∀ c ∈ (Seller.divideGoF fuel lst m).dropLast, c.length = m + 1 := by
  intro fuel
  induction fuel with
  | zero => intro lst h c hc; simp [Seller.divideGoF] at hc
  | succ fuel ih =>
    intro lst h c hc
    cases lst with
    | nil => simp [Seller.divideGoF] at hc
    | cons a rest =>
      simp only [Seller.divideGoF] at hc
      cases hrec : Seller.divideGoF fuel ((a :: rest).drop (m + 1)) m with
      | nil => rw [hrec] at hc; simp at hc
      | cons r rs =>
        rw [hrec] at hc
        rw [List.dropLast_cons₂] at hc
        have hlen : ((a :: rest).drop (m + 1)).length ≤ fuel := by
          simp only [List.length_drop, List.length_cons] at h ⊢
          omega
        rcases List.mem_cons.mp hc with rfl | hc2
        · have hne : (a :: rest).drop (m + 1) ≠ [] := by
            intro hnil
            rw [hnil, divideGoF_nil] at hrec
            exact List.cons_ne_nil r rs hrec.symm
          have hlt : m + 1 < (a :: rest).length := by
            by_contra hle
            push_neg at hle
            exact hne (List.drop_eq_nil_of_le hle)
          rw [List.length_take]
          omega
        · exact ih _ hlen c (by rw [hrec]; exact hc2)

/-- C4: for every list and every `n > 0`, `divide` yields consecutive
chunks of length at most `n` whose concatenation is the original list,
every chunk but the last has length exactly `n`, the empty list yields no
chunks, and `divide [1,2,3,4,5] 2 = [[1,2],[3,4],[5]]`. -/
theorem claim_C4 :
    (∀ (α : Type) (lst : List α) (n : Nat), 0 < n →
      ∃ chunks, Seller.divide lst n = some chunks ∧
        chunks.flatten = lst ∧
        (∀ c ∈ chunks, c.length ≤ n) ∧
        (∀ c ∈ chunks.dropLast, c.length = n) ∧
        (lst = [] → chunks = [])) ∧
    Seller.divide ([1, 2, 3, 4, 5] : List Nat) 2 = some [[1, 2], [3, 4], [5]] := by
  constructor
  · intro α lst n hn
    have hne : n ≠ 0 := Nat.pos_iff_ne_zero.mp hn
    have hsucc : n - 1 + 1 = n := Nat.succ_pred_eq_of_pos hn
    refine ⟨Seller.divideGoF lst.length lst (n - 1), ?_, ?_, ?_, ?_, ?_⟩
    · simp [Seller.divide, hne]
    · exact divideGoF_join (n - 1) lst.length lst le_rfl
    · intro c hc
      have := divideGoF_length_le (n - 1) lst.length lst c hc
      omega
    · intro c hc
      have := divideGoF_dropLast (n - 1) lst.length lst le_rfl c hc
      omega
    · intro hnil
      subst hnil
      rfl
  · rfl

/-- C4 witness: the universal part applied at `[1,2,3]` and `n = 2`. -/
theorem claim_C4_witness :
    0 < 2 ∧
    ∃ chunks, Seller.divide ([1, 2, 3] : List Nat) 2 = some chunks ∧
      chunks.flatten = [1, 2, 3] ∧
      (∀ c ∈ chunks, c.length ≤ 2) ∧
      (∀ c ∈ chunks.dropLast, c.length = 2) ∧
      (([1, 2, 3] : List Nat) = [] → chunks = []) :=
  ⟨by decide, claim_C4.1 Nat [1, 2, 3] 2 (by decide)⟩

lemma countP_eq_ite_of_nodup {α : Type} [DecidableEq α] (l : List α) (hl : l.Nodup) (a : α) :
    l.countP (fun x => x = a) = if a ∈ l then 1 else 0 := by
  induction l with
  | nil => simp
  | cons b t ih =>
    rw [List.countP_cons]
    rcases List.nodup_cons.mp hl with ⟨hb, ht⟩
    by_cases hab : b = a
    · subst hab
      simp [ih ht, hb]
    · simp only [List.mem_cons]
      rw [ih ht]
      by_cases hmem : a ∈ t <;> simp [hmem, hab, Ne.symm hab]

lemma sloop_cons_mem_inv {w : Watch} {rest : List Watch} {ids : List String}
    {st : List Seller.StockEntry} {rem : List String} (hmem : w.kod ∈ ids)
    (h : Seller.create_stocksLoop (w :: rest) ids = some (st, rem)) :
    ∃ stock st', stockOfCount w.kolichestvo = some stock ∧
      Seller.create_stocksLoop rest (ids.erase w.kod) = some (st', rem) ∧
      st = ⟨w.kod, stock⟩ :: st' := by
  simp only [Seller.create_stocksLoop, hmem, if_true] at h
  rcases Option.bind_eq_some.mp h with ⟨stock, hso, h2⟩
  rcases Option.map_eq_some'.mp h2 with ⟨⟨st', rem'⟩, hrec, heq⟩
  injection heq with h1 h2'
  subst h1
  subst h2'
  exact ⟨stock, st', hso, hrec, rfl⟩

lemma sloop_rem_sublist :
    ∀ (ws : List Watch) (ids : List String) (st : List Seller.StockEntry)
      (rem : List String), Seller.create_stocksLoop ws ids = some (st, rem) →
      rem.Sublist ids := by
  intro ws
  induction ws with
  | nil =>
    intro ids st rem h
    simp only [Seller.create_stocksLoop, Option.some.injEq, Prod.mk.injEq] at h
    rw [← h.2]
  | cons w rest ih =>
    intro ids st rem h
    by_cases hmem : w.kod ∈ ids
    · rcases sloop_cons_mem_inv hmem h with ⟨stock, st', _, hrec, _⟩
      exact (ih _ _ _ hrec).trans (ids.erase_sublist w.kod)
    · simp only [Seller.create_stocksLoop, hmem, if_false] at h
      exact ih _ _ _ h

lemma sloop_mem_ids :
    ∀ (ws : List Watch) (ids : List String) (st : List Seller.StockEntry)
      (rem : List String), Seller.create_stocksLoop ws ids = some (st, rem) →
      ∀ e ∈ st, e.offer_id ∈ ids := by
  intro ws
  induction ws with
  | nil =>
    intro ids st rem h e he
    simp only [Seller.create_stocksLoop, Option.some.injEq, Prod.mk.injEq] at h
    rw [← h.1] at he
    simp at he
  | cons w rest ih =>
    intro ids st rem h e he
    by_cases hmem : w.kod ∈ ids
    · rcases sloop_cons_mem_inv hmem h with ⟨stock, st', _, hrec, hst⟩
      subst hst
      rcases List.mem_cons.mp he with rfl | he'
      · exact hmem
      · exact List.mem_of_mem_erase (ih _ _ _ hrec e he')
    · simp only [Seller.create_stocksLoop, hmem, if_false] at h
      exact ih _ _ _ h e he

lemma sloop_count :
    ∀ (ws : List Watch) (ids : List String) (st : List Seller.StockEntry)
      (rem : List String), ids.Nodup → Seller.create_stocksLoop ws ids = some (st, rem) →
      ∀ oid : String,
        st.countP (fun e => e.offer_id = oid) + (if oid ∈ rem then 1 else 0) =
          (if oid ∈ ids then 1 else 0) := by
  intro ws
  induction ws with
  | nil =>
    intro ids st rem hnd h oid
    simp only [Seller.create_stocksLoop, Option.some.injEq, Prod.mk.injEq] at h
    rw [← h.1, ← h.2]
    simp
  | cons w rest ih =>
    intro ids st rem hnd h oid
    by_cases hmem : w.kod ∈ ids
    · rcases sloop_cons_mem_inv hmem h with ⟨stock, st', _, hrec, hst⟩
      subst hst
      have hnd' : (ids.erase w.kod).Nodup := hnd.erase w.kod
      have hih := ih _ _ _ hnd' hrec oid
      by_cases hoid : w.kod = oid
      · subst hoid
        have hnotin : w.kod ∉ ids.erase w.kod := fun hin =>
          ((hnd.mem_erase_iff).mp hin).1 rfl
        rw [if_neg hnotin] at hih
        rw [List.countP_cons_of_pos _ _ (by simp), if_pos hmem]
        omega
      · rw [List.countP_cons_of_neg _ _ (by simp [hoid])]
        have hiff : oid ∈ ids.erase w.kod ↔ oid ∈ ids := by
          rw [hnd.mem_erase_iff]
          exact ⟨fun h' => h'.2, fun h' => ⟨fun he => hoid he.symm, h'⟩⟩
        simp only [hiff] at hih
        exact hih
    · simp only [Seller.create_stocksLoop, hmem, if_false] at h
      exact ih _ _ _ hnd h oid

lemma sloop_find :
    ∀ (ws : List Watch) (ids : List String) (st : List Seller.StockEntry)
      (rem : List String), ids.Nodup → Seller.create_stocksLoop ws ids = some (st, rem) →
      ∀ e ∈ st, ∃ w, ws.find? (fun x => x.kod = e.offer_id) = some w ∧
        stockOfCount w.kolichestvo = some e.stock := by
  intro ws
  induction ws with
  | nil =>
    intro ids st rem _ h e he
    simp only [Seller.create_stocksLoop, Option.some.injEq, Prod.mk.injEq] at h
    rw [← h.1] at he
    simp at he
  | cons w rest ih =>
    intro ids st rem hnd h e he
    by_cases hmem : w.kod ∈ ids
    · rcases sloop_cons_mem_inv hmem h with ⟨stock, st', hso, hrec, hst⟩
      subst hst
      rcases List.mem_cons.mp he with rfl | he'
      · exact ⟨w, by simp [List.find?_cons], hso⟩
      · have hne : w.kod ≠ e.offer_id := by
          intro heq
          have : e.offer_id ∈ ids.erase w.kod :=
            sloop_mem_ids _ _ _ _ hrec e he'
          rw [← heq] at this
          exact ((hnd.mem_erase_iff).mp this).1 rfl
        rcases ih _ _ _ (hnd.erase w.kod) hrec e he' with ⟨w', hfind, hso'⟩
        refine ⟨w', ?_, hso'⟩
        rw [List.find?_cons]
        simp [hne, hfind]
    · simp only [Seller.create_stocksLoop, hmem, if_false] at h
      rcases ih _ _ _ hnd h e he with ⟨w', hfind, hso'⟩
      have hne : w.kod ≠ e.offer_id := by
        intro heq
        exact hmem (heq ▸ sloop_mem_ids _ _ _ _ h e he)
      refine ⟨w', ?_, hso'⟩
      rw [List.find?_cons]
      simp [hne, hfind]

lemma sloop_rem_unmatched :
    ∀ (ws : List Watch) (ids : List String) (st : List Seller.StockEntry)
      (rem : List String), ids.Nodup → Seller.create_stocksLoop ws ids = some (st, rem) →
      ∀ r ∈ rem, ∀ w ∈ ws, w.kod ≠ r := by
  intro ws
  induction ws with
  | nil => intro ids st rem _ _ r _ w hw; simp at hw
  | cons w rest ih =>
    intro ids st rem hnd h r hr w' hw'
    by_cases hmem : w.kod ∈ ids
    · rcases sloop_cons_mem_inv hmem h with ⟨stock, st', _, hrec, _⟩
      have hsub : rem.Sublist (ids.erase w.kod) := sloop_rem_sublist _ _ _ _ hrec
      rcases List.mem_cons.mp hw' with heqw | hw2
      · intro heq
        have hrin : r ∈ ids.erase w.kod := hsub.subset hr
        rw [← heq, ← heqw] at hrin
        rw [heqw] at hrin
        exact ((hnd.mem_erase_iff).mp hrin).1 (heqw ▸ heq ▸ rfl)
      · exact ih _ _ _ (hnd.erase w.kod) hrec r hr w' hw2
    · simp only [Seller.create_stocksLoop, hmem, if_false] at h
      rcases List.mem_cons.mp hw' with heqw | hw2
      · intro heq
        apply hmem
        rw [← heqw, heq]
        exact (sloop_rem_sublist _ _ _ _ h).subset hr
      · exact ih _ _ _ hnd h r hr w' hw2

lemma sloop_rem_keep :
    ∀ (ws : List Watch) (ids : List String) (st : List Seller.StockEntry)
      (rem : List String), Seller.create_stocksLoop ws ids = some (st, rem) →
      ∀ oid ∈ ids, (∀ w ∈ ws, w.kod ≠ oid) → oid ∈ rem := by
  intro ws
  induction ws with
  | nil =>
    intro ids st rem h oid hoid _
    simp only [Seller.create_stocksLoop, Option.some.injEq, Prod.mk.injEq] at h
    rw [← h.2]
    exact hoid
  | cons w rest ih =>
    intro ids st rem h oid hoid hno
    by_cases hmem : w.kod ∈ ids
    · rcases sloop_cons_mem_inv hmem h with ⟨stock, st', _, hrec, _⟩
      have hne : w.kod ≠ oid := hno w (List.mem_cons_self w rest)
      have : oid ∈ ids.erase w.kod := (List.mem_erase_of_ne (Ne.symm hne)).mpr hoid
      exact ih _ _ _ hrec oid this (fun w' hw' => hno w' (List.mem_cons_of_mem w hw'))
    · simp only [Seller.create_stocksLoop, hmem, if_false] at h
      exact ih _ _ _ h oid hoid (fun w' hw' => hno w' (List.mem_cons_of_mem w hw'))

lemma sloop_fail :
    ∀ (ws : List Watch) (ids : List String) (w : Watch), w ∈ ws → w.kod ∈ ids →
      (ws.map Watch.kod).Nodup → stockOfCount w.kolichestvo = none →
      Seller.create_stocksLoop ws ids = none := by
  intro ws
  induction ws with
  | nil => intro ids w hw; simp at hw
  | cons w0 rest ih =>
    intro ids w hw hmem hnd hso
    simp only [List.map_cons, List.nodup_cons] at hnd
    rcases hnd with ⟨h0, hnd'⟩
    rcases List.mem_cons.mp hw with heqw | hw2
    · have hm0 : w0.kod ∈ ids := heqw ▸ hmem
      have hso0 : stockOfCount w0.kolichestvo = none := heqw ▸ hso
      simp only [Seller.create_stocksLoop, hm0, if_true, hso0]
      rfl
    · have hne : w0.kod ≠ w.kod := by
        intro heq
        rw [heq] at h0
        exact h0 (List.mem_map_of_mem Watch.kod hw2)
      by_cases hm0 : w0.kod ∈ ids
      · simp only [Seller.create_stocksLoop, hm0, if_true]
        cases hso0 : stockOfCount w0.kolichestvo with
        | none => rfl
        | some s =>
          have hrec : Seller.create_stocksLoop rest (ids.erase w0.kod) = none :=
            ih _ w hw2 ((List.mem_erase_of_ne (Ne.symm hne)).mpr hmem) hnd' hso
          simp [hrec]
      · simp only [Seller.create_stocksLoop, hm0, if_false]
        exact ih _ w hw2 hmem hnd' hso

lemma mloop_eq (ws : List Watch) :
    ∀ (ids : List String) (wh d : String),
      Market.create_stocksLoop ws ids wh d =
        (Seller.create_stocksLoop ws ids).map
          (fun p => (p.1.map (toMarketEntry wh d), p.2)) := by
  induction ws with
  | nil => intro ids wh d; rfl
  | cons w rest ih =>
    intro ids wh d
    by_cases hmem : w.kod ∈ ids
    · simp only [Market.create_stocksLoop, Seller.create_stocksLoop, hmem, if_true, ih]
      cases stockOfCount w.kolichestvo with
      | none => rfl
      | some s =>
        cases Seller.create_stocksLoop rest (ids.erase w.kod) with
        | none => rfl
        | some p => rfl
    · simp only [Market.create_stocksLoop, Seller.create_stocksLoop, hmem, if_false, ih]

lemma market_stocks_eq (ws : List Watch) (ids : List String) (wh d : String) :
    Market.create_stocks ws ids wh d =
      (Seller.create_stocks ws ids).map
        (fun p => (p.1.map (toMarketEntry wh d), p.2)) := by
  unfold Market.create_stocks Seller.create_stocks
  rw [mloop_eq]
  cases Seller.create_stocksLoop ws ids with
  | none => rfl
  | some p =>
    simp only [Option.map_some', List.map_append, List.map_map]
    rfl

/-- C1: with a duplicate-free known-offer list, a successful `create_stocks`
run emits exactly one entry per known offer id; matched entries carry the
quantity derived (by the quantity policy) from the matching inventory
record, unmatched ids get quantity 0, and no entry carries an id outside
the known-offer list — for the Ozon list and for the Yandex Market list. -/
theorem claim_C1 (ws : List Watch) (ids : List String)
    (st : List Seller.StockEntry) (rem : List String)
    (mst : List Market.MarketStockEntry) (mrem : List String) (wh d : String)
    (hnd : ids.Nodup)
    (h : Seller.create_stocks ws ids = some (st, rem))
    (hm : Market.create_stocks ws ids wh d = some (mst, mrem)) :
    (∀ oid ∈ ids, st.countP (fun e => e.offer_id = oid) = 1) ∧
    (∀ e ∈ st, e.offer_id ∈ ids) ∧
    (∀ e ∈ st, (∃ w ∈ ws, w.kod = e.offer_id ∧ stockOfCount w.kolichestvo = some e.stock) ∨
      (e.stock = 0 ∧ ∀ w ∈ ws, w.kod ≠ e.offer_id)) ∧
    (∀ oid ∈ ids, (∀ w ∈ ws, w.kod ≠ oid) → (⟨oid, 0⟩ : Seller.StockEntry) ∈ st) ∧
    (∀ oid ∈ ids, mst.countP (fun e => e.sku = oid) = 1) ∧
    (∀ e ∈ mst, e.sku ∈ ids) := by
  have horig := h
  rw [market_stocks_eq, horig, Option.map_some'] at hm
  have hmst : mst = st.map (toMarketEntry wh d) :=
    (congrArg Prod.fst (Option.some.inj hm)).symm
  rw [Seller.create_stocks] at h
  rcases Option.map_eq_some'.mp h with ⟨⟨lst, rem0⟩, hloop, heq⟩
  have hst : st = lst ++ rem0.map (fun oid => (⟨oid, 0⟩ : Seller.StockEntry)) :=
    (congrArg Prod.fst heq).symm
  have hsub : rem0.Sublist ids := sloop_rem_sublist _ _ _ _ hloop
  have hremnd : rem0.Nodup := hsub.nodup hnd
  have hcount1 : ∀ oid ∈ ids, st.countP (fun e => e.offer_id = oid) = 1 := by
    intro oid hoid
    have hc := sloop_count _ _ _ _ hnd hloop oid
    rw [if_pos hoid] at hc
    have hmapcnt :
        (rem0.map (fun oid' => (⟨oid', 0⟩ : Seller.StockEntry))).countP
          (fun e => e.offer_id = oid) = if oid ∈ rem0 then 1 else 0 := by
      rw [List.countP_map]
      exact countP_eq_ite_of_nodup rem0 hremnd oid
    rw [hst, List.countP_append, hmapcnt]
    omega
  have hmemids : ∀ e ∈ st, e.offer_id ∈ ids := by
    intro e he
    rw [hst] at he
    rcases List.mem_append.mp he with he1 | he2
    · exact sloop_mem_ids _ _ _ _ hloop e he1
    · rcases List.mem_map.mp he2 with ⟨r, hr, rfl⟩
      exact hsub.subset hr
  refine ⟨hcount1, hmemids, ?_, ?_, ?_, ?_⟩
  · intro e he
    rw [hst] at he
    rcases List.mem_append.mp he with he1 | he2
    · left
      rcases sloop_find _ _ _ _ hnd hloop e he1 with ⟨w, hfind, hso⟩
      refine ⟨w, List.mem_of_find?_eq_some hfind, ?_, hso⟩
      have := List.find?_some hfind
      simpa using this
    · right
      rcases List.mem_map.mp he2 with ⟨r, hr, rfl⟩
      exact ⟨rfl, fun w hw => sloop_rem_unmatched _ _ _ _ hnd hloop r hr w hw⟩
  · intro oid hoid hno
    have hinrem : oid ∈ rem0 := sloop_rem_keep _ _ _ _ hloop oid hoid hno
    rw [hst]
    exact List.mem_append_right _ (List.mem_map_of_mem _ hinrem)
  · intro oid hoid
    rw [hmst, List.countP_map]
    exact hcount1 oid hoid
  · intro e he
    rw [hmst] at he
    rcases List.mem_map.mp he with ⟨e0, he0, rfl⟩
    exact hmemids e0 he0

/-- C1 witness: the theorem applied to one matched record `"A"` (quantity
`"5"`) and the known-offer list `["A", "B"]`. -/
theorem claim_C1_witness :
    (["A", "B"] : List String).Nodup ∧
    Seller.create_stocks [⟨"A", "5", "x"⟩] ["A", "B"] =
      some ([⟨"A", 5⟩, ⟨"B", 0⟩], ["B"]) ∧
    Market.create_stocks [⟨"A", "5", "x"⟩] ["A", "B"] "w" "t" =
      some ([⟨"A", "w", [⟨5, "FIT", "t"⟩]⟩, ⟨"B", "w", [⟨0, "FIT", "t"⟩]⟩], ["B"]) ∧
    (∀ oid ∈ (["A", "B"] : List String),
      ([⟨"A", 5⟩, ⟨"B", 0⟩] : List Seller.StockEntry).countP
        (fun e => e.offer_id = oid) = 1) :=
  ⟨by decide, rfl, rfl,
    (claim_C1 [⟨"A", "5", "x"⟩] ["A", "B"] [⟨"A", 5⟩, ⟨"B", 0⟩] ["B"]
      [⟨"A", "w", [⟨5, "FIT", "t"⟩]⟩, ⟨"B", "w", [⟨0, "FIT", "t"⟩]⟩] ["B"] "w" "t"
      (by decide) rfl rfl).1⟩

/-- C2: the quantity policy of stock reconciliation: `">10"` yields 100,
`"1"` yields 0, any other string is parsed by Python `int()` (`"7"` yields
7), a successfully parsed matched record is emitted with the derived
quantity, and a matched record whose quantity string fails `int()` makes
the whole reconciliation raise (`none`), in both marketplace variants. -/
theorem claim_C2 :
    stockOfCount ">10" = some 100 ∧
    stockOfCount "1" = some 0 ∧
    stockOfCount "7" = some 7 ∧
    (∀ s : String, s ≠ ">10" → s ≠ "1" → stockOfCount s = pyInt s) ∧
    stockOfCount "abc" = none ∧
    (∀ (k q p : String) (ids : List String), k ∈ ids → ∀ v, stockOfCount q = some v →
      ∃ st rem, Seller.create_stocks [⟨k, q, p⟩] ids = some (st, rem) ∧
        (⟨k, v⟩ : Seller.StockEntry) ∈ st) ∧
    (∀ (ws : List Watch) (ids : List String) (w : Watch), w ∈ ws → w.kod ∈ ids →
      (ws.map Watch.kod).Nodup → stockOfCount w.kolichestvo = none →
      Seller.create_stocks ws ids = none ∧
        ∀ wh d, Market.create_stocks ws ids wh d = none) := by
  refine ⟨rfl, rfl, rfl, ?_, rfl, ?_, ?_⟩
  · intro s h1 h2
    rw [stockOfCount, if_neg h1, if_neg h2]
  · intro k q p ids hk v hv
    refine ⟨⟨k, v⟩ :: (ids.erase k).map (fun oid => ⟨oid, 0⟩), ids.erase k, ?_,
      List.mem_cons_self _ _⟩
    simp [Seller.create_stocks, Seller.create_stocksLoop, hk, hv]
  · intro ws ids w hw hmem hnd hso
    have hfail := sloop_fail ws ids w hw hmem hnd hso
    constructor
    · rw [Seller.create_stocks, hfail]
      rfl
    · intro wh d
      rw [market_stocks_eq, Seller.create_stocks, hfail]
      rfl

/-- C2 witness: the failure conjunct applied to the single record
`{"Код": "A", "Количество": "abc"}` with known offer `"A"`. -/
theorem claim_C2_witness :
    (⟨"A", "abc", "p"⟩ : Watch) ∈ [(⟨"A", "abc", "p"⟩ : Watch)] ∧
    ("A" : String) ∈ ["A"] ∧ stockOfCount "abc" = none ∧
    Seller.create_stocks [⟨"A", "abc", "p"⟩] ["A"] = none :=
  ⟨List.mem_singleton_self _, List.mem_singleton_self _, rfl,
    (claim_C2.2.2.2.2.2.2 [⟨"A", "abc", "p"⟩] ["A"] ⟨"A", "abc", "p"⟩
      (List.mem_singleton_self _) (List.mem_singleton_self _) (by decide) rfl).1⟩

lemma pricesLoop_eq (ws : List Watch) :
    ∀ ids : List String,
      Seller.create_pricesLoop ws ids =
        ((ws.filter (fun w => w.kod ∈ ids)).map Seller.priceOf, ids) := by
  induction ws with
  | nil => intro ids; rfl
  | cons w rest ih =>
    intro ids
    by_cases hmem : w.kod ∈ ids
    · simp [Seller.create_pricesLoop, hmem, ih, List.filter_cons]
    · simp [Seller.create_pricesLoop, hmem, ih, List.filter_cons]

lemma mpricesLoop_eq (ws : List Watch) :
    ∀ ids : List String,
      Market.create_pricesLoop ws ids =
        ((ws.filter (fun w => w.kod ∈ ids)).mapM Market.priceOf).map
          (fun ps => (ps, ids)) := by
  induction ws with
  | nil => intro ids; rfl
  | cons w rest ih =>
    intro ids
    by_cases hmem : w.kod ∈ ids
    · rw [List.filter_cons, if_pos (by simpa using hmem), List.mapM_cons]
      simp only [Market.create_pricesLoop, hmem, if_true, ih]
      cases hpw : Market.priceOf w with
      | none => rfl
      | some pr =>
        cases hM : (rest.filter (fun w => w.kod ∈ ids)).mapM Market.priceOf with
        | none => rfl
        | some ps => rfl
    · rw [List.filter_cons, if_neg (by simpa using hmem)]
      simp only [Market.create_pricesLoop, hmem, if_false, ih]

lemma mapM_eq_none_of_mem {α β : Type} (f : α → Option β) :
    ∀ (l : List α) (a : α), a ∈ l → f a = none → l.mapM f = none := by
  intro l
  induction l with
  | nil => intro a ha; simp at ha
  | cons b t ih =>
    intro a ha hfa
    rw [List.mapM_cons]
    rcases List.mem_cons.mp ha with heq | ht
    · rw [← heq, hfa]
      rfl
    · cases hfb : f b with
      | none => rfl
      | some vb =>
        have hmt : List.mapM.loop f t [] = none := ih a ht hfa
        simp [hfb, hmt]

/-- C6: `create_prices` emits exactly one price record per inventory record
whose code is in the offer-id list (the Ozon list is exactly the mapped
filter of the inventory; the Yandex Market run is the same traversal with
the fallible `int()` conversion), emits nothing for ids absent from
inventory, and leaves the offer-id list unchanged in both variants. -/
theorem claim_C6 (ws : List Watch) (ids : List String) :
    (Seller.create_prices ws ids).1 =
      (ws.filter (fun w => w.kod ∈ ids)).map Seller.priceOf ∧
    (Seller.create_prices ws ids).2 = ids ∧
    (∀ e ∈ (Seller.create_prices ws ids).1, ∃ w ∈ ws, e.offer_id = w.kod ∧ w.kod ∈ ids) ∧
    Market.create_prices ws ids =
      ((ws.filter (fun w => w.kod ∈ ids)).mapM Market.priceOf).map
        (fun ps => (ps, ids)) ∧
    (∀ ps rem, Market.create_prices ws ids = some (ps, rem) → rem = ids) := by
  have hs := pricesLoop_eq ws ids
  have hm := mpricesLoop_eq ws ids
  refine ⟨?_, ?_, ?_, hm, ?_⟩
  · rw [Seller.create_prices, hs]
  · rw [Seller.create_prices, hs]
  · intro e he
    rw [Seller.create_prices, hs] at he
    rcases List.mem_map.mp he with ⟨w, hw, rfl⟩
    rcases List.mem_filter.mp hw with ⟨hw1, hw2⟩
    exact ⟨w, hw1, rfl, by simpa using hw2⟩
  · intro ps rem hpr
    rw [Market.create_prices, hm] at hpr
    rcases Option.map_eq_some'.mp hpr with ⟨ps0, _, heq⟩
    exact (congrArg Prod.snd heq).symm

/-- C6 witness: one matching record emits exactly its one price record. -/
theorem claim_C6_witness :
    ((⟨"UNKNOWN", "RUB", "A", "0", "100"⟩ : Seller.SellerPrice) ∈
      (Seller.create_prices [⟨"A", "5", "100 руб"⟩] ["A"]).1) ∧
    (∃ w ∈ [(⟨"A", "5", "100 руб"⟩ : Watch)],
      (⟨"UNKNOWN", "RUB", "A", "0", "100"⟩ : Seller.SellerPrice).offer_id = w.kod ∧
        w.kod ∈ (["A"] : List String)) :=
  ⟨by decide,
    (claim_C6 [⟨"A", "5", "100 руб"⟩] ["A"]).2.2.1 ⟨"UNKNOWN", "RUB", "A", "0", "100"⟩
      (by decide)⟩

/-- C10: a matched inventory record whose price string has no digit before
its first `'.'` makes the Yandex Market price reconciler raise (`int("")`,
modelled as `none`), while the Ozon reconciler silently emits the record
with the empty string as its price. -/
theorem claim_C10 (ws : List Watch) (ids : List String) (w : Watch)
    (hw : w ∈ ws) (hid : w.kod ∈ ids)
    (hnodig : ∀ c ∈ w.tsena.data.takeWhile (fun c => c ≠ '.'), ¬ c.isDigit) :
    Market.create_prices ws ids = none ∧
    (⟨"UNKNOWN", "RUB", w.kod, "0", ""⟩ : Seller.SellerPrice) ∈
      (Seller.create_prices ws ids).1 := by
  have hpc : Seller.price_conversion w.tsena = "" := by
    rw [price_conversion_eq]
    have hnil : (w.tsena.data.takeWhile (fun c => c ≠ '.')).filter Char.isDigit = [] := by
      rw [List.filter_eq_nil_iff]
      intro c hc
      simpa using hnodig c hc
    rw [hnil]
  have hpw : Market.priceOf w = none := by
    rw [Market.priceOf, hpc]
    rfl
  have hwf : w ∈ ws.filter (fun w => w.kod ∈ ids) :=
    List.mem_filter.mpr ⟨hw, by simpa using hid⟩
  constructor
  · rw [Market.create_prices, mpricesLoop_eq,
      mapM_eq_none_of_mem Market.priceOf _ w hwf hpw]
    rfl
  · rw [Seller.create_prices, pricesLoop_eq]
    have hpentry : (⟨"UNKNOWN", "RUB", w.kod, "0", ""⟩ : Seller.SellerPrice) =
        Seller.priceOf w := by
      rw [Seller.priceOf, hpc]
    rw [hpentry]
    exact List.mem_map_of_mem _ hwf

/-- C10 witness: the record `{"Код": "A", "Цена": "руб."}` with known offer
`"A"`. -/
theorem claim_C10_witness :
    ((⟨"A", "5", "руб."⟩ : Watch) ∈ [(⟨"A", "5", "руб."⟩ : Watch)]) ∧
    Market.create_prices [⟨"A", "5", "руб."⟩] ["A"] = none :=
  ⟨List.mem_singleton_self _,
    (claim_C10 [⟨"A", "5", "руб."⟩] ["A"] ⟨"A", "5", "руб."⟩ (List.mem_singleton_self _)
      (List.mem_singleton_self _) (by decide)).1⟩

/-- C5 counterexample: the Yandex Market variant stamps each entry with the
current clock reading, so two runs of `create_stocks` on the same inventory
and offer set, observed one second apart, produce stock-update lists that
are not equal up to any reordering. -/
theorem claim_C5_counterexample :
    Market.create_stocks [⟨"A", "5", "p"⟩] ["A"] "w" "2024-01-01T00:00:00Z" =
      some ([⟨"A", "w", [⟨5, "FIT", "2024-01-01T00:00:00Z"⟩]⟩], []) ∧
    Market.create_stocks [⟨"A", "5", "p"⟩] ["A"] "w" "2024-01-01T00:00:01Z" =
      some ([⟨"A", "w", [⟨5, "FIT", "2024-01-01T00:00:01Z"⟩]⟩], []) ∧
    ¬ ([(⟨"A", "w", [⟨5, "FIT", "2024-01-01T00:00:00Z"⟩]⟩ : Market.MarketStockEntry)].Perm
        [⟨"A", "w", [⟨5, "FIT", "2024-01-01T00:00:01Z"⟩]⟩]) := by
  refine ⟨rfl, rfl, ?_⟩
  intro hperm
  exact absurd (List.perm_singleton.mp hperm) (by decide)

/-- C5 as amended: reconciliation is deterministic in its inputs — two runs
on the same inventory and offer set yield identical (hence
permutation-equal) lists for the Ozon variant, and for the Yandex Market
variant identical lists up to the `updatedAt` timestamp, which records each
run's clock reading (runs observing the same timestamp agree exactly). -/
theorem claim_C5_amended :
    (∀ (ws : List Watch) (ids : List String) st1 rem1 st2 rem2,
      Seller.create_stocks ws ids = some (st1, rem1) →
      Seller.create_stocks ws ids = some (st2, rem2) → st1.Perm st2) ∧
    (∀ (ws : List Watch) (ids : List String) (wh d : String) st1 rem1 st2 rem2,
      Market.create_stocks ws ids wh d = some (st1, rem1) →
      Market.create_stocks ws ids wh d = some (st2, rem2) → st1.Perm st2) ∧
    (∀ (ws : List Watch) (ids : List String) (wh d1 d2 : String),
      (Market.create_stocks ws ids wh d1).map (fun p => p.1.map entryKey) =
        (Market.create_stocks ws ids wh d2).map (fun p => p.1.map entryKey)) := by
  refine ⟨?_, ?_, ?_⟩
  · intro ws ids st1 rem1 st2 rem2 h1 h2
    rw [h1] at h2
    exact List.Perm.of_eq (congrArg Prod.fst (Option.some.inj h2))
  · intro ws ids wh d st1 rem1 st2 rem2 h1 h2
    rw [h1] at h2
    exact List.Perm.of_eq (congrArg Prod.fst (Option.some.inj h2))
  · intro ws ids wh d1 d2
    rw [market_stocks_eq, market_stocks_eq]
    cases Seller.create_stocks ws ids with
    | none => rfl
    | some p =>
      simp only [Option.map_some', List.map_map]
      rfl

/-- C5 witness: the Ozon conjunct of the amended claim at a concrete run. -/
theorem claim_C5_amended_witness :
    Seller.create_stocks [] ["A"] = some ([⟨"A", 0⟩], ["A"]) ∧
    ([(⟨"A", 0⟩ : Seller.StockEntry)]).Perm [⟨"A", 0⟩] :=
  ⟨rfl, claim_C5_amended.1 [] ["A"] [⟨"A", 0⟩] ["A"] [⟨"A", 0⟩] ["A"] rfl rfl⟩

lemma cs_rem_unmatched (ws : List Watch) (ids : List String)
    (st : List Seller.StockEntry) (rem : List String) (hnd : ids.Nodup)
    (h : Seller.create_stocks ws ids = some (st, rem)) :
    ∀ r ∈ rem, ∀ w ∈ ws, w.kod ≠ r := by
  rw [Seller.create_stocks] at h
  rcases Option.map_eq_some'.mp h with ⟨⟨lst, rem0⟩, hloop, heq⟩
  have h2 : rem0 = rem := congrArg Prod.snd heq
  subst h2
  exact sloop_rem_unmatched _ _ _ _ hnd hloop

/-- C7: the spec's end-to-end scenario evaluated on the orchestration as
coded.  The stock side matches the claim in both modules, and the market
pipeline (whose price pass re-fetches the offer list) yields the claimed
price update for `"A"`; but `seller.main` hands `create_prices` the offer
list already consumed by `create_stocks`, so its price-update list is
empty, not `[A ↦ "100"]` as the claim requires. -/
theorem claim_C7_eval :
    sellerMainScopeRun [⟨"A", ">10", "100.00 р."⟩] ["A", "B", "C"] =
      some ([⟨"A", 100⟩, ⟨"B", 0⟩, ⟨"C", 0⟩], []) ∧
    marketMainScopeRun [⟨"A", ">10", "100.00 р."⟩] ["A", "B", "C"] ["A", "B", "C"]
        "wh" "d" =
      some ([⟨"A", "wh", [⟨100, "FIT", "d"⟩]⟩, ⟨"B", "wh", [⟨0, "FIT", "d"⟩]⟩,
             ⟨"C", "wh", [⟨0, "FIT", "d"⟩]⟩], [⟨"A", ⟨100, "RUR"⟩⟩]) :=
  ⟨rfl, rfl⟩

/-- C9 counterexample: in the market pipeline the price pass runs on a
fresh offer-list fetch, so a `PriceUpdate` is emitted for `"A"` even though
`"A"` was matched (and consumed: the stock pass leaves no remainder) during
the stock pass. -/
theorem claim_C9_counterexample :
    marketMainScopeRun [⟨"A", "5", "100.00 руб."⟩] ["A"] ["A"] "w" "d" =
      some ([⟨"A", "w", [⟨5, "FIT", "d"⟩]⟩], [⟨"A", ⟨100, "RUR"⟩⟩]) ∧
    (Market.create_stocks [⟨"A", "5", "100.00 руб."⟩] ["A"] "w" "d").map Prod.snd =
      some [] :=
  ⟨rfl, rfl⟩

/-- C9 as amended: both `create_stocks` variants consume every matched code
from the caller's offer list (the remainder matches no inventory record);
in `seller.main` the subsequent `create_prices` call sees that consumed
list and therefore emits no price update at all; in `market.main` the price
pass performs its own fresh fetch, so it is unaffected by the consumption. -/
theorem claim_C9_amended :
    (∀ (ws : List Watch) (ids : List String) st rem, ids.Nodup →
      Seller.create_stocks ws ids = some (st, rem) →
      ∀ r ∈ rem, ∀ w ∈ ws, w.kod ≠ r) ∧
    (∀ (ws : List Watch) (ids : List String) (wh d : String) mst mrem, ids.Nodup →
      Market.create_stocks ws ids wh d = some (mst, mrem) →
      ∀ r ∈ mrem, ∀ w ∈ ws, w.kod ≠ r) ∧
    (∀ (ws : List Watch) (ids : List String) st ps, ids.Nodup →
      sellerMainScopeRun ws ids = some (st, ps) → ps = []) ∧
    (∀ (ws : List Watch) (idsStock idsPrice : List String) (wh d : String) mst mps,
      marketMainScopeRun ws idsStock idsPrice wh d = some (mst, mps) →
      Market.create_prices ws idsPrice = some (mps, idsPrice)) := by
  refine ⟨cs_rem_unmatched, ?_, ?_, ?_⟩
  · intro ws ids wh d mst mrem hnd hm
    rw [market_stocks_eq] at hm
    rcases Option.map_eq_some'.mp hm with ⟨⟨lst, rem0⟩, hsell, heq⟩
    have h2 : rem0 = mrem := congrArg Prod.snd heq
    subst h2
    exact cs_rem_unmatched _ _ _ _ hnd hsell
  · intro ws ids st ps hnd h
    rw [sellerMainScopeRun] at h
    rcases Option.map_eq_some'.mp h with ⟨⟨st0, rem0⟩, hcs, heq⟩
    have hps : ps = (Seller.create_prices ws rem0).1 := (congrArg Prod.snd heq).symm
    have hunm := cs_rem_unmatched ws ids st0 rem0 hnd hcs
    have hfil : ws.filter (fun w => w.kod ∈ rem0) = [] := by
      rw [List.filter_eq_nil_iff]
      intro w hw
      simp only [decide_eq_true_eq]
      intro hin
      exact hunm w.kod hin w hw rfl
    rw [hps, Seller.create_prices, pricesLoop_eq, hfil]
    rfl
  · intro ws idsStock idsPrice wh d mst mps h
    rw [marketMainScopeRun] at h
    rcases Option.bind_eq_some.mp h with ⟨sp, _, h2⟩
    rcases Option.map_eq_some'.mp h2 with ⟨pp, hpp, heq⟩
    have hmps : pp.1 = mps := congrArg Prod.snd heq
    rw [Market.create_prices, mpricesLoop_eq] at hpp ⊢
    rcases Option.map_eq_some'.mp hpp with ⟨ps0, hps0, heq2⟩
    rw [hps0, Option.map_some']
    have hfst : ps0 = mps := by
      rw [← heq2] at hmps
      exact hmps
    rw [hfst]

/-- C9 witness: third conjunct of the amended claim at a concrete run of
the `seller.main` sequence. -/
theorem claim_C9_amended_witness :
    (["A"] : List String).Nodup ∧
    sellerMainScopeRun [⟨"A", "5", "x"⟩] ["A"] = some ([⟨"A", 5⟩], []) ∧
    ([] : List Seller.SellerPrice) = [] :=
  ⟨by decide, rfl,
    claim_C9_amended.2.2.1 [⟨"A", "5", "x"⟩] ["A"] [⟨"A", 5⟩] [] (by decide) rfl⟩

/-- C8 counterexample: in `market.main` the inventory download runs before
the `try` block, so a read-timeout raised by the download escapes `main`
unhandled instead of being caught by one of the three handlers. -/
theorem claim_C8_counterexample :
    marketMain (Except.error PyExc.readTimeout) (Except.ok ["A"]) (Except.ok ())
        (Except.ok ["A"]) (Except.ok ()) (Except.ok ["A"]) (Except.ok ())
        (Except.ok ["A"]) (Except.ok ()) "wf" "wd" "d" =
      Outcome.uncaught PyExc.readTimeout ∧
    (marketMain (Except.error PyExc.readTimeout) (Except.ok ["A"]) (Except.ok ())
        (Except.ok ["A"]) (Except.ok ()) (Except.ok ["A"]) (Except.ok ())
        (Except.ok ["A"]) (Except.ok ()) "wf" "wd" "d").isCaught = false :=
  ⟨rfl, rfl⟩

/-- C8 as amended: every error from the guarded steps is dispatched to
exactly one of the three ordered handlers (read-timeout first, then
connection error, then the catch-all, which matches everything), aborting
the remaining steps; `seller.main` guards its whole body, downloads
included, so nothing escapes it — but in `market.main` only the post-download
body is guarded, and a download error escapes uncaught. -/
theorem claim_C8_amended :
    (∀ e : PyExc, (handlerOf e = 1 ∧ catches1 e = true) ∨
      (handlerOf e = 2 ∧ catches1 e = false ∧ catches2 e = true) ∨
      (handlerOf e = 3 ∧ catches1 e = false ∧ catches2 e = false)) ∧
    (∀ e : PyExc, catches3 e = true) ∧
    (∀ fi dl ps pp e, sellerMainBody fi dl ps pp = Except.error e →
      sellerMain fi dl ps pp = Outcome.caught (handlerOf e) e) ∧
    (∀ fi dl ps pp r, sellerMainBody fi dl ps pp = Except.ok r →
      sellerMain fi dl ps pp = Outcome.completed r) ∧
    (∀ fi dl ps pp e, sellerMain fi dl ps pp ≠ Outcome.uncaught e) ∧
    (∀ e dl ps pp, sellerMainBody (Except.error e) dl ps pp = Except.error e) ∧
    (∀ ws f1 p1 f2 p2 f3 p3 f4 p4 whF whD d e,
      marketMainBody ws f1 p1 f2 p2 f3 p3 f4 p4 whF whD d = Except.error e →
      marketMain (Except.ok ws) f1 p1 f2 p2 f3 p3 f4 p4 whF whD d =
        Outcome.caught (handlerOf e) e) ∧
    (∀ ws f1 p1 f2 p2 f3 p3 f4 p4 whF whD d e,
      marketMain (Except.ok ws) f1 p1 f2 p2 f3 p3 f4 p4 whF whD d ≠
        Outcome.uncaught e) ∧
    (∀ e f1 p1 f2 p2 f3 p3 f4 p4 whF whD d,
      marketMain (Except.error e) f1 p1 f2 p2 f3 p3 f4 p4 whF whD d =
        Outcome.uncaught e) := by
  refine ⟨?_, fun e => rfl, ?_, ?_, ?_, fun e dl ps pp => rfl, ?_, ?_, fun e _ _ _ _ _ _ _ _ _ _ _ => rfl⟩
  · intro e
    cases e <;> simp [handlerOf, catches1, catches2]
  · intro fi dl ps pp e hbody
    rw [sellerMain, hbody]
    rfl
  · intro fi dl ps pp r hbody
    rw [sellerMain, hbody]
    rfl
  · intro fi dl ps pp e
    cases hbody : sellerMainBody fi dl ps pp with
    | error e0 => rw [sellerMain, hbody]; simp [runCaught]
    | ok r => rw [sellerMain, hbody]; simp [runCaught]
  · intro ws f1 p1 f2 p2 f3 p3 f4 p4 whF whD d e hbody
    rw [marketMain, hbody]
    rfl
  · intro ws f1 p1 f2 p2 f3 p3 f4 p4 whF whD d e
    cases hbody : marketMainBody ws f1 p1 f2 p2 f3 p3 f4 p4 whF whD d with
    | error e0 => rw [marketMain, hbody]; simp [runCaught]
    | ok r => rw [marketMain, hbody]; simp [runCaught]

/-- C8 witness: a read-timeout in the offer-id fetch of `seller.main` is
caught by the first handler. -/
theorem claim_C8_amended_witness :
    sellerMainBody (Except.error PyExc.readTimeout) (Except.ok []) (Except.ok ())
        (Except.ok ()) = Except.error PyExc.readTimeout ∧
    sellerMain (Except.error PyExc.readTimeout) (Except.ok []) (Except.ok ())
        (Except.ok ()) = Outcome.caught (handlerOf PyExc.readTimeout) PyExc.readTimeout :=
  ⟨rfl, claim_C8_amended.2.2.1 _ _ _ _ _ rfl⟩
